import Mathlib

/-!
Shallow embedding of `ytar` (src/lib.rs), a streaming POSIX ustar decoder.
Bytes are modelled as `Nat` (values < 256 in practice); machine integers
(`u64`, `usize`) are `Nat`; overflow checks of the Rust integer parser are
modelled explicitly against `u64::MAX`.

Rust outcomes are modelled by `Res`: `.ok` for a normal value, `.err` for an
`io::Error` returned to the caller, `.fatal` for a process abort
(`assert!` / `.expect` panic).
-/

namespace Ytar

/-- Outcome of a fallible Rust computation: a value, a typed `io::Error`
returned to the caller, or a panic that aborts the process. -/
inductive Res (α : Type) where
  | ok : α → Res α
  | err : String → Res α
  | fatal : String → Res α
deriving DecidableEq

/-- `TypeFlag` from src/lib.rs lines 33-44. -/
inductive TypeFlag where
  | Regular
  | HardLink
  | SymbolicLink
  | CharacterDevice
  | BlockDevice
  | Directory
  | FIFO
  | PaxNextFile
  | PaxFollowingFiles
  | Other : Nat → TypeFlag
deriving DecidableEq

/-- `TypeFlag::from_u8` (lines 47-60): `b'0' | b'\0' => Regular`, `b'1'`..`b'6'`,
`b'x'`, `b'g'`, anything else to `Other`. Byte literals are their ASCII values. -/
def TypeFlag.from_u8 (x : Nat) : TypeFlag :=
  if x = 48 ∨ x = 0 then .Regular
  else if x = 49 then .HardLink
  else if x = 50 then .SymbolicLink
  else if x = 51 then .CharacterDevice
  else if x = 52 then .BlockDevice
  else if x = 53 then .Directory
  else if x = 54 then .FIFO
  else if x = 120 then .PaxNextFile
  else if x = 103 then .PaxFollowingFiles
  else .Other x

/-- `TypeFlag::to_u8` (lines 61-74). -/
def TypeFlag.to_u8 : TypeFlag → Nat
  | .Regular => 48
  | .HardLink => 49
  | .SymbolicLink => 50
  | .CharacterDevice => 51
  | .BlockDevice => 52
  | .Directory => 53
  | .FIFO => 54
  | .PaxNextFile => 120
  | .PaxFollowingFiles => 103
  | .Other x => x

/-- `InnerHeader` (lines 9-29): the 512-byte packed record.  The `prefix`
field is called `pfx` here because `prefix` is reserved in Lean; all other
field names follow the source (leading underscores dropped). -/
structure InnerHeader where
  name : List Nat       -- 100 bytes at offset 0
  mode : List Nat       -- 8 bytes at offset 100
  uid : List Nat        -- 8 bytes at offset 108
  gid : List Nat        -- 8 bytes at offset 116
  size : List Nat       -- 12 bytes at offset 124
  mtime : List Nat      -- 12 bytes at offset 136
  checksum : List Nat   -- 8 bytes at offset 148
  typeflag : Nat        -- 1 byte at offset 156
  linkname : List Nat   -- 100 bytes at offset 157
  magic : List Nat      -- 6 bytes at offset 257
  version : List Nat    -- 2 bytes at offset 263
  uname : List Nat      -- 32 bytes at offset 265
  gname : List Nat      -- 32 bytes at offset 297
  devmajor : List Nat   -- 8 bytes at offset 329
  devminor : List Nat   -- 8 bytes at offset 337
  pfx : List Nat        -- 155 bytes at offset 345 (the source's `prefix`)
  pad : List Nat        -- 12 bytes at offset 500
deriving DecidableEq

/-- `zerocopy::transmute!` of a 512-byte block (line 196): field-by-field
slicing at the packed offsets of `InnerHeader`. -/
def decodeHeader (blk : List Nat) : InnerHeader where
  name := blk.take 100
  mode := (blk.drop 100).take 8
  uid := (blk.drop 108).take 8
  gid := (blk.drop 116).take 8
  size := (blk.drop 124).take 12
  mtime := (blk.drop 136).take 12
  checksum := (blk.drop 148).take 8
  typeflag := blk.getD 156 0
  linkname := (blk.drop 157).take 100
  magic := (blk.drop 257).take 6
  version := (blk.drop 263).take 2
  uname := (blk.drop 265).take 32
  gname := (blk.drop 297).take 32
  devmajor := (blk.drop 329).take 8
  devminor := (blk.drop 337).take 8
  pfx := (blk.drop 345).take 155
  pad := (blk.drop 500).take 12

/-- `trim_slice` (lines 141-148): truncate at the first NUL byte, whole
slice if none. -/
def trim_slice (x : List Nat) : List Nat :=
  match x.findIdx? (· = 0) with
  | some pos => x.take pos
  | none => x

/-- `InnerHeader::is_posix` (lines 78-80): magic `"ustar\0"`, version `"00"`. -/
def InnerHeader.is_posix (h : InnerHeader) : Bool :=
  h.magic = [117, 115, 116, 97, 114, 0] ∧ h.version = [48, 48]

/-- `InnerHeader::typeflag()` (lines 82-84); named `type_flag` because the
raw field is already called `typeflag`. -/
def InnerHeader.type_flag (h : InnerHeader) : TypeFlag :=
  TypeFlag.from_u8 h.typeflag

/-- `InnerHeader::full_name` (lines 86-92): trimmed `prefix`, a `'/'` (47),
then the trimmed `name`. -/
def InnerHeader.full_name (h : InnerHeader) : List Nat :=
  trim_slice h.pfx ++ 47 :: trim_slice h.name

/-- `InnerHeader::path` (lines 99-105). -/
def InnerHeader.path (h : InnerHeader) : List Nat :=
  if h.pfx.getD 0 0 = 0 then trim_slice h.name
  else h.full_name

/-- `u64::from_le_bytes` on a byte list: little-endian value. -/
def from_le_bytes (l : List Nat) : Nat :=
  l.foldr (fun b acc => acc * 256 + b) 0

/-- `InnerHeader::size_binary` (lines 107-118): `assert!` that byte 0 is
exactly `0b10000000` and bytes 1-3 are zero (otherwise the process aborts
with "size too big"), then bytes 4..12 as a little-endian `u64`. -/
def InnerHeader.size_binary (h : InnerHeader) : Res Nat :=
  if h.size.getD 0 0 = 128 ∧ h.size.getD 1 0 = 0 ∧ h.size.getD 2 0 = 0 ∧
      h.size.getD 3 0 = 0 then
    .ok (from_le_bytes ((h.size.drop 4).take 8))
  else .fatal "size too big"

/-- UTF-8 validation automaton, one byte per step: `pend` lists the
`(lo, hi)` ranges the next continuation bytes must fall into; with no
continuation pending, an ASCII byte passes through and a leader byte
queues its continuation ranges (shortest-form ranges, surrogates
excluded), exactly as `std::str::from_utf8` checks. -/
def utf8Auto : List (Nat × Nat) → List Nat → Bool
  | [], [] => true
  | _ :: _, [] => false
  | (lo, hi) :: pend, c :: l => if lo ≤ c ∧ c ≤ hi then utf8Auto pend l else false
  | [], b :: l =>
    if b ≤ 127 then utf8Auto [] l
    else if 194 ≤ b ∧ b ≤ 223 then utf8Auto [(128, 191)] l
    else if b = 224 then utf8Auto [(160, 191), (128, 191)] l
    else if (225 ≤ b ∧ b ≤ 236) ∨ b = 238 ∨ b = 239 then
      utf8Auto [(128, 191), (128, 191)] l
    else if b = 237 then utf8Auto [(128, 159), (128, 191)] l
    else if b = 240 then utf8Auto [(144, 191), (128, 191), (128, 191)] l
    else if 241 ≤ b ∧ b ≤ 243 then
      utf8Auto [(128, 191), (128, 191), (128, 191)] l
    else if b = 244 then utf8Auto [(128, 143), (128, 191), (128, 191)] l
    else false

/-- UTF-8 validity of a byte list, as checked by `std::str::from_utf8`. -/
def utf8Valid (l : List Nat) : Bool := utf8Auto [] l

/-- `u64::MAX`. -/
def U64MAX : Nat := 2 ^ 64 - 1

/-- Digit loop of `u64::from_str_radix(_, 8)`: each byte must be an ASCII
octal digit (`char::to_digit(8)`, i.e. `'0'..'7'`), `acc = acc * 8 + digit`
with the checked-arithmetic overflow test against `u64::MAX`; any non-digit
or overflow is a parse error (`none`). -/
def parseDigits (acc : Nat) : List Nat → Option Nat
  | [] => some acc
  | b :: rest =>
    if 48 ≤ b ∧ b ≤ 55 then
      if acc * 8 + (b - 48) ≤ U64MAX then parseDigits (acc * 8 + (b - 48)) rest
      else none
    else none

/-- `u64::from_str_radix(s, 8)` on the bytes of `s`: empty input fails, a
leading `'+'` (43) is stripped (but `"+"` alone fails), a leading `'-'` (45)
fails for an unsigned target, then the digit loop runs. -/
def from_str_radix8 (s : List Nat) : Option Nat :=
  match s with
  | [] => none
  | b :: rest =>
    if b = 43 then (if rest = [] then none else parseDigits 0 rest)
    else if b = 45 then none
    else parseDigits 0 s

/-- `InnerHeader::size_octal` (lines 120-130): `assert!` the terminator
`self.size[11] == b' '` (else abort), `str::from_utf8(&self.size[..11])`
(`.expect` aborts on invalid UTF-8), then `u64::from_str_radix(_, 8)`
(`.expect` aborts on a parse error). -/
def InnerHeader.size_octal (h : InnerHeader) : Res Nat :=
  if h.size.getD 11 0 = 32 then
    if utf8Valid (h.size.take 11) then
      match from_str_radix8 (h.size.take 11) with
      | some v => .ok v
      | none => .fatal "invalid size field, not an octal number"
    else .fatal "invalid size field, not valid ascii"
  else .fatal "invalid size field, badly terminated"

/-- `InnerHeader::size` (lines 132-138): binary when byte 0 has its high bit
set (`>= 0b10000000`), octal otherwise.  Named `sizeVal` because the raw
field is already called `size`. -/
def InnerHeader.sizeVal (h : InnerHeader) : Res Nat :=
  if 128 ≤ h.size.getD 0 0 then h.size_binary else h.size_octal

/-- `blocks` (lines 219-225): `0` if `size == 0`, else `size / 512 + 1`. -/
def blocks (size : Nat) : Nat :=
  if size = 0 then 0 else size / 512 + 1

/-!
The streaming reader.  The underlying `R: io::Read` is an abstract state
type `σ` with a read operation `rd s n`: ask for up to `n` bytes, obtain a
byte list (possibly shorter, empty signalling exhaustion) and the source's
next state, or an `io::Error`.  `WellBehaved` states the `io::Read`
contract that no more bytes are delivered than were asked for.
-/

/-- A well-behaved source delivers at most as many bytes as requested and
never itself panics (it may return `io::Error`s freely). -/
def WellBehaved {σ : Type} (rd : σ → Nat → Res (List Nat × σ)) : Prop :=
  (∀ s L bs s', rd s L = .ok (bs, s') → bs.length ≤ L) ∧
  (∀ s L e, rd s L ≠ .fatal e)

/-- `TarReader` (lines 150-154): the source plus the two counters.
`next_header` is the spec's `pending_skip`, `data_left` its `body_left`. -/
structure TarReader (σ : Type) where
  tar : σ
  next_header : Nat
  data_left : Nat
deriving DecidableEq

/-- `TarReader::new` (lines 157-163). -/
def TarReader.new {σ : Type} (s : σ) : TarReader σ :=
  ⟨s, 0, 0⟩

/-- The skip loop of `TarReader::next` (lines 166-177): while
`next_header != 0`, read up to `min(next_header, 512)` bytes and discard
them; a zero-byte read is an unexpected-EOF `io::Error`, and
`assert!(n <= self.next_header)` aborts if violated.  Returns the outcome
together with the source state and the remaining `next_header` counter. -/
def skipLoop {σ : Type} (rd : σ → Nat → Res (List Nat × σ)) (s : σ) (nh : Nat) :
    Res Unit × σ × Nat :=
  if _h0 : nh = 0 then (.ok (), s, 0)
  else
    match rd s (min nh 512) with
    | .err e => (.err e, s, nh)
    | .fatal e => (.fatal e, s, nh)
    | .ok (bs, s') =>
      if _h1 : bs.length = 0 then
        (.err "unexpected EOF while skipping to next file", s', nh)
      else if h2 : bs.length ≤ nh then skipLoop rd s' (nh - bs.length)
      else (.fatal "assertion failed: n <= self.next_header", s', nh)
termination_by nh
decreasing_by omega

/-- The header fill loop of `TarReader::next` (lines 186-195): accumulate
reads into the 512-byte block until exactly 512 bytes are present; a
zero-byte read is an unexpected-EOF `io::Error`.  Were the source to
deliver past 512 bytes, the slice `buf[bytes_read..]` would abort. -/
def fillLoop {σ : Type} (rd : σ → Nat → Res (List Nat × σ)) (s : σ)
    (acc : List Nat) : Res (List Nat) × σ :=
  if _h0 : acc.length = 512 then (.ok acc, s)
  else if _h1 : 512 < acc.length then
    (.fatal "range start index out of range for slice", s)
  else
    match rd s (512 - acc.length) with
    | .err e => (.err e, s)
    | .fatal e => (.fatal e, s)
    | .ok (bs, s') =>
      if h2 : bs.length = 0 then
        (.err "unexpected EOF while reading next header", s')
      else fillLoop rd s' (acc ++ bs)
termination_by 512 - acc.length
decreasing_by simp [List.length_append]; omega

/-- `TarReader::next` (lines 164-204): skip to the next header boundary,
reset both counters, read one full 512-byte block (zero bytes on the very
first read is the normal end of the archive), treat a leading NUL in `name`
as the end-of-archive sentinel, otherwise decode the header and set
`next_header = blocks(size) * 512` and `data_left = size`.  The
`blocks(header.size() as usize) * 512` multiply at line 201 is raw `usize`
arithmetic, so it is taken mod 2^64 (release-profile wrapping semantics on a
64-bit target; a debug build would abort at the multiply instead).  Returns
the outcome together with the post-call reader state. -/
def nextEntry {σ : Type} (rd : σ → Nat → Res (List Nat × σ)) (r : TarReader σ) :
    Res (Option InnerHeader) × TarReader σ :=
  match skipLoop rd r.tar r.next_header with
  | (.err e, s1, nh1) => (.err e, ⟨s1, nh1, r.data_left⟩)
  | (.fatal e, s1, nh1) => (.fatal e, ⟨s1, nh1, r.data_left⟩)
  | (.ok _, s1, _) =>
    match rd s1 512 with
    | .err e => (.err e, ⟨s1, 0, 0⟩)
    | .fatal e => (.fatal e, ⟨s1, 0, 0⟩)
    | .ok (bs, s2) =>
      if bs.length = 0 then (.ok none, ⟨s2, 0, 0⟩)
      else
        match fillLoop rd s2 bs with
        | (.err e, s3) => (.err e, ⟨s3, 0, 0⟩)
        | (.fatal e, s3) => (.fatal e, ⟨s3, 0, 0⟩)
        | (.ok blk, s3) =>
          if (decodeHeader blk).name.getD 0 0 = 0 then (.ok none, ⟨s3, 0, 0⟩)
          else
            match (decodeHeader blk).sizeVal with
            | .err e => (.err e, ⟨s3, 0, 0⟩)
            | .fatal e => (.fatal e, ⟨s3, 0, 0⟩)
            | .ok sz => (.ok (some (decodeHeader blk)), ⟨s3, blocks sz * 512 % 2 ^ 64, sz⟩)

/-- `<TarReader as io::Read>::read` (lines 207-217): read up to
`min(data_left, buf.len())` bytes from the source, `assert!` the count
against both counters (aborting if violated), then decrement both.
Returns the byte count together with the post-call reader state. -/
def tarRead {σ : Type} (rd : σ → Nat → Res (List Nat × σ)) (r : TarReader σ)
    (bufLen : Nat) : Res Nat × TarReader σ :=
  match rd r.tar (min r.data_left bufLen) with
  | .err e => (.err e, r)
  | .fatal e => (.fatal e, r)
  | .ok (bs, s') =>
    if bs.length ≤ r.data_left then
      if bs.length ≤ r.next_header then
        (.ok bs.length, ⟨s', r.next_header - bs.length, r.data_left - bs.length⟩)
      else (.fatal "assertion failed: bytes_read <= self.next_header",
            ⟨s', r.next_header, r.data_left⟩)
    else (.fatal "assertion failed: bytes_read <= self.data_left",
          ⟨s', r.next_header, r.data_left⟩)

/-!
A concrete source for witnesses, counterexamples, and the block-alignment
characterization: a byte list `data` still to be delivered, plus a list
`caps` of per-call delivery caps modelling partial reads (when `caps` is
exhausted the source delivers everything asked for).  The source delivers
`min(request, cap, remaining)` bytes and never returns an `io::Error`; it
delivers zero bytes exactly on exhaustion provided every cap is positive
(`GoodCaps`).
-/

/-- A concrete byte source with a partial-read schedule. -/
structure StreamSrc where
  data : List Nat
  caps : List Nat
deriving DecidableEq

/-- Bytes the source is willing to deliver on the current call. -/
def capNow (s : StreamSrc) : Nat :=
  match s.caps with
  | [] => s.data.length
  | c :: _ => min c s.data.length

/-- The concrete source's read operation. -/
def srcRead (s : StreamSrc) (req : Nat) : Res (List Nat × StreamSrc) :=
  .ok (s.data.take (min req (capNow s)),
       ⟨s.data.drop (min req (capNow s)), s.caps.tail⟩)

/-- Every per-call cap is positive, so a zero-byte delivery means genuine
exhaustion. -/
def GoodCaps (caps : List Nat) : Prop := ∀ c ∈ caps, 1 ≤ c

/-- A header record whose `size` field is the given 12 bytes (the other
fields are fixed innocuous values). -/
def hdrWithSize (sz : List Nat) : InnerHeader where
  name := 97 :: List.replicate 99 0
  mode := List.replicate 8 48
  uid := List.replicate 8 48
  gid := List.replicate 8 48
  size := sz
  mtime := List.replicate 12 48
  checksum := List.replicate 8 32
  typeflag := 48
  linkname := List.replicate 100 0
  magic := [117, 115, 116, 97, 114, 0]
  version := [48, 48]
  uname := List.replicate 32 0
  gname := List.replicate 32 0
  devmajor := List.replicate 8 48
  devminor := List.replicate 8 48
  pfx := List.replicate 155 0
  pad := List.replicate 12 0

/-- An always-erroring byte source (a legal `io::Read` implementation). -/
def errSrc : Unit → Nat → Res (List Nat × Unit) := fun _ _ => .err "source failure"

/-- A call-counting source: its state counts the reads issued to it; it
always succeeds delivering nothing. -/
def countSrc : Nat → Nat → Res (List Nat × Nat) := fun k _ => .ok ([], k + 1)

/-!
## Helper lemmas about the size-field decoders
-/

/-- The base-8 value of bytes 0-10 of a size field, digits most significant
first — the number the spec says an octal size field denotes. -/
def octValue (sz : List Nat) : Nat :=
  (sz.take 11).foldl (fun a b => a * 8 + (b - 48)) 0

/-- An ASCII octal digit byte. -/
def isOctDigit (b : Nat) : Prop := 48 ≤ b ∧ b ≤ 55

instance (b : Nat) : Decidable (isOctDigit b) := by
  unfold isOctDigit; infer_instance

/-- Modelled from the spec: `encode_octal(s)` — a valid octal size field is
"11 ASCII octal digits + trailing space", most significant digit first
(the code ships no encoder). -/
def encode_octal (s : Nat) : List Nat :=
  [48 + s / 8 ^ 10 % 8, 48 + s / 8 ^ 9 % 8, 48 + s / 8 ^ 8 % 8,
   48 + s / 8 ^ 7 % 8, 48 + s / 8 ^ 6 % 8, 48 + s / 8 ^ 5 % 8,
   48 + s / 8 ^ 4 % 8, 48 + s / 8 ^ 3 % 8, 48 + s / 8 ^ 2 % 8,
   48 + s / 8 ^ 1 % 8, 48 + s / 8 ^ 0 % 8, 32]

/-- Modelled from the spec: bytes 4-11 of a binary size field "hold n as a
64-bit little-endian unsigned value". -/
def leBytes (n : Nat) : List Nat :=
  [n / 256 ^ 0 % 256, n / 256 ^ 1 % 256, n / 256 ^ 2 % 256, n / 256 ^ 3 % 256,
   n / 256 ^ 4 % 256, n / 256 ^ 5 % 256, n / 256 ^ 6 % 256, n / 256 ^ 7 % 256]

/-- A size field that C2 calls malformed in octal mode (byte 0 high bit
clear): a non-octal-digit byte among bytes 0-10 or a missing terminating
space — excluding the sign-accepting shape `'+'` (43) followed by ten
octal digits, which the Rust integer parser accepts (see C2's
counterexample). -/
def MalformedOct (sz : List Nat) : Prop :=
  sz.getD 0 0 < 128 ∧
  (sz.getD 11 0 ≠ 32 ∨
    ((∃ i, i < 11 ∧ ¬ isOctDigit (sz.getD i 0)) ∧
     ¬(sz.getD 0 0 = 43 ∧ ∀ i, 1 ≤ i → i < 11 → isOctDigit (sz.getD i 0))))

instance (sz : List Nat) : Decidable (MalformedOct sz) := by
  unfold MalformedOct; infer_instance

/-- A size field that C2 calls malformed in binary mode: the high bit of
byte 0 is set but the bytes are not exactly `0x80 0 0 0 ...`. -/
def MalformedBin (sz : List Nat) : Prop :=
  128 ≤ sz.getD 0 0 ∧
  ¬(sz.getD 0 0 = 128 ∧ sz.getD 1 0 = 0 ∧ sz.getD 2 0 = 0 ∧ sz.getD 3 0 = 0)

instance (sz : List Nat) : Decidable (MalformedBin sz) := by
  unfold MalformedBin; infer_instance

/-- A header record with the given `name` and `prefix` fields (size field
an all-zero octal field, other fields innocuous). -/
def hdrWithPath (nm pfx : List Nat) : InnerHeader :=
  { hdrWithSize (encode_octal 0) with name := nm, pfx := pfx }

/-- One Horner step of decoding base-8 digits most-significant first. -/
theorem horner8 (s a b : Nat) (h : (8:ℕ) ^ a = 8 ^ b * 8) :
    s / 8 ^ a * 8 + s / 8 ^ b % 8 = s / 8 ^ b := by
  have hdd : s / 8 ^ b / 8 = s / 8 ^ a := by
    rw [Nat.div_div_eq_div_mul, ← h]
  omega

/-- One Horner step of recomposing base-256 digits most-significant first. -/
theorem horner256 (n a b : Nat) (h : (256:ℕ) ^ a = 256 ^ b * 256) :
    n / 256 ^ a * 256 + n / 256 ^ b % 256 = n / 256 ^ b := by
  have hdd : n / 256 ^ b / 256 = n / 256 ^ a := by
    rw [Nat.div_div_eq_div_mul, ← h]
  omega

theorem utf8Valid_of_ascii : ∀ l : List Nat, (∀ b ∈ l, b ≤ 127) → utf8Valid l = true := by
  have main : ∀ l : List Nat, (∀ b ∈ l, b ≤ 127) → utf8Auto [] l = true := by
    intro l
    induction l with
    | nil => intro _; rfl
    | cons b t ih =>
      intro h
      have hb : b ≤ 127 := h b (List.mem_cons_self b t)
      have ht : utf8Auto [] t = true := ih fun x hx => h x (List.mem_cons_of_mem b hx)
      rw [utf8Auto, if_pos hb, ht]
  intro l h
  rw [utf8Valid]
  exact main l h

theorem parseDigits_all (l : List Nat) : ∀ acc : Nat,
    (∀ b ∈ l, isOctDigit b) → acc * 8 ^ l.length + (8 ^ l.length - 1) ≤ U64MAX →
    parseDigits acc l = some (l.foldl (fun a b => a * 8 + (b - 48)) acc) := by
  induction l with
  | nil => intro acc _ _; rfl
  | cons b t ih =>
    intro acc hd hb
    have hdig : isOctDigit b := hd b (List.mem_cons_self b t)
    have hx : 0 < 8 ^ t.length := pow_pos (by norm_num) _
    have hb' : acc * (8 ^ t.length * 8) + (8 ^ t.length * 8 - 1) ≤ U64MAX := by
      have hpow : (8 : Nat) ^ (b :: t).length = 8 ^ t.length * 8 := by
        simp [List.length_cons, pow_succ]
      rw [hpow] at hb; exact hb
    have key : (acc * 8 + (b - 48)) * 8 ^ t.length + (8 ^ t.length - 1) ≤ U64MAX := by
      have hq : b - 48 ≤ 7 := by
        obtain ⟨_, h2⟩ := hdig; omega
      have q1 : (acc * 8 + (b - 48)) * 8 ^ t.length ≤ (acc * 8 + 7) * 8 ^ t.length :=
        Nat.mul_le_mul_right _ (by omega)
      have q2 : (acc * 8 + 7) * 8 ^ t.length = acc * (8 ^ t.length * 8) + 7 * 8 ^ t.length := by
        ring
      omega
    have hstep : acc * 8 + (b - 48) ≤ U64MAX :=
      le_trans (le_trans (Nat.le_mul_of_pos_right _ hx) (Nat.le_add_right _ _)) key
    have hdig' : 48 ≤ b ∧ b ≤ 55 := hdig
    rw [parseDigits, if_pos hdig', if_pos hstep, List.foldl_cons]
    exact ih (acc * 8 + (b - 48)) (fun x hx' => hd x (List.mem_cons_of_mem b hx')) key

theorem parseDigits_digits (l : List Nat) : ∀ acc v : Nat,
    parseDigits acc l = some v → ∀ b ∈ l, isOctDigit b := by
  induction l with
  | nil => intro _ _ _ b hb; exact absurd hb (List.not_mem_nil b)
  | cons c t ih =>
    intro acc v hp b hb
    rw [parseDigits] at hp
    by_cases hc : 48 ≤ c ∧ c ≤ 55
    · rw [if_pos hc] at hp
      by_cases hle : acc * 8 + (c - 48) ≤ U64MAX
      · rw [if_pos hle] at hp
        rcases List.mem_cons.1 hb with rfl | hbt
        · exact hc
        · exact ih _ v hp b hbt
      · rw [if_neg hle] at hp; exact Option.noConfusion hp
    · rw [if_neg hc] at hp; exact Option.noConfusion hp

/-- A list of length 12 is an explicit 12-tuple. -/
theorem eq_twelve (l : List Nat) (h : l.length = 12) :
    ∃ b0 b1 b2 b3 b4 b5 b6 b7 b8 b9 b10 b11,
      l = [b0, b1, b2, b3, b4, b5, b6, b7, b8, b9, b10, b11] := by
  rcases l with _ | ⟨b0, _ | ⟨b1, _ | ⟨b2, _ | ⟨b3, _ | ⟨b4, _ | ⟨b5, _ | ⟨b6,
    _ | ⟨b7, _ | ⟨b8, _ | ⟨b9, _ | ⟨b10, _ | ⟨b11, _ | ⟨b12, t⟩⟩⟩⟩⟩⟩⟩⟩⟩⟩⟩⟩⟩ <;>
    simp_all

/-- `trim_slice` on a well-formed NUL-padded field (NUL-free content
followed by NUL padding) recovers exactly the content. -/
theorem trim_slice_padded (xs pad : List Nat) (h1 : ∀ b ∈ xs, b ≠ 0)
    (h2 : ∀ b ∈ pad, b = 0) : trim_slice (xs ++ pad) = xs := by
  induction xs with
  | nil =>
    rw [List.nil_append, trim_slice]
    cases pad with
    | nil => rfl
    | cons p t =>
      have hp : p = 0 := h2 p (List.mem_cons_self p t)
      rw [List.findIdx?_cons, if_pos (by simp [hp])]
      rfl
  | cons x xs ih =>
    have hx : x ≠ 0 := h1 x (List.mem_cons_self x xs)
    have ih' := ih fun b hb => h1 b (List.mem_cons_of_mem x hb)
    rw [trim_slice] at ih'
    rw [List.cons_append, trim_slice, List.findIdx?_cons,
      if_neg (by simp [hx]), List.findIdx?_succ]
    cases hfi : (xs ++ pad).findIdx? (fun e => decide (e = 0)) with
    | none =>
      rw [hfi] at ih'
      simp only [hfi, Option.map_none']
      simpa using ih'
    | some pos =>
      rw [hfi] at ih'
      simp only [hfi, Option.map_some']
      simpa using ih'

/-- A successful `from_str_radix8` run means the input was octal digits
throughout, or a `'+'` followed by octal digits. -/
theorem from_str_radix8_shape (l : List Nat) (v : Nat)
    (hp : from_str_radix8 l = some v) :
    (∀ b ∈ l, isOctDigit b) ∨ ∃ t, l = 43 :: t ∧ ∀ b ∈ t, isOctDigit b := by
  cases l with
  | nil => exact absurd hp (by rw [from_str_radix8]; exact Option.noConfusion)
  | cons b rest =>
    rw [from_str_radix8] at hp
    by_cases hb : b = 43
    · rw [if_pos hb] at hp
      by_cases hr : rest = []
      · rw [if_pos hr] at hp; exact Option.noConfusion hp
      · rw [if_neg hr] at hp
        exact Or.inr ⟨rest, by rw [hb], parseDigits_digits rest 0 v hp⟩
    · rw [if_neg hb] at hp
      by_cases hb' : b = 45
      · rw [if_pos hb'] at hp; exact Option.noConfusion hp
      · rw [if_neg hb'] at hp
        exact Or.inl (parseDigits_digits (b :: rest) 0 v hp)

/-- The size operation on a well-formed octal field (all of bytes 0-10
octal digits, byte 11 a space) returns the base-8 value of bytes 0-10. -/
theorem sizeVal_octal_digits (h : InnerHeader) (hlen : h.size.length = 12)
    (hd : ∀ i < 11, isOctDigit (h.size.getD i 0)) (h11 : h.size.getD 11 0 = 32) :
    h.sizeVal = .ok (octValue h.size) := by
  obtain ⟨b0, b1, b2, b3, b4, b5, b6, b7, b8, b9, b10, b11, hsz⟩ := eq_twelve h.size hlen
  have d0 : isOctDigit b0 := by simpa [hsz] using hd 0 (by norm_num)
  have d1 : isOctDigit b1 := by simpa [hsz] using hd 1 (by norm_num)
  have d2 : isOctDigit b2 := by simpa [hsz] using hd 2 (by norm_num)
  have d3 : isOctDigit b3 := by simpa [hsz] using hd 3 (by norm_num)
  have d4 : isOctDigit b4 := by simpa [hsz] using hd 4 (by norm_num)
  have d5 : isOctDigit b5 := by simpa [hsz] using hd 5 (by norm_num)
  have d6 : isOctDigit b6 := by simpa [hsz] using hd 6 (by norm_num)
  have d7 : isOctDigit b7 := by simpa [hsz] using hd 7 (by norm_num)
  have d8 : isOctDigit b8 := by simpa [hsz] using hd 8 (by norm_num)
  have d9 : isOctDigit b9 := by simpa [hsz] using hd 9 (by norm_num)
  have d10 : isOctDigit b10 := by simpa [hsz] using hd 10 (by norm_num)
  have hb11 : b11 = 32 := by simpa [hsz] using h11
  have htake : h.size.take 11 = [b0, b1, b2, b3, b4, b5, b6, b7, b8, b9, b10] := by
    rw [hsz]; rfl
  have hdigs : ∀ b ∈ [b0, b1, b2, b3, b4, b5, b6, b7, b8, b9, b10], isOctDigit b := by
    intro x hx
    simp only [List.mem_cons, List.not_mem_nil, or_false] at hx
    rcases hx with rfl | rfl | rfl | rfl | rfl | rfl | rfl | rfl | rfl | rfl | rfl <;>
      assumption
  have hfsr : from_str_radix8 (h.size.take 11) = some (octValue h.size) := by
    rw [htake, from_str_radix8, if_neg (by obtain ⟨hx, _⟩ := d0; omega : ¬ b0 = 43),
      if_neg (by obtain ⟨hx, _⟩ := d0; omega : ¬ b0 = 45)]
    rw [parseDigits_all _ 0 hdigs (by norm_num [U64MAX])]
    rw [octValue, htake]
  have hcond : ¬ 128 ≤ h.size.getD 0 0 := by
    obtain ⟨_, hx⟩ := d0
    rw [hsz]; simp; omega
  rw [InnerHeader.sizeVal, if_neg hcond, InnerHeader.size_octal,
    if_pos (show h.size.getD 11 0 = 32 from h11)]
  have hutf : utf8Valid (h.size.take 11) = true := by
    apply utf8Valid_of_ascii
    intro x hx
    rw [htake] at hx
    have := hdigs x hx
    obtain ⟨_, hx2⟩ := this
    omega
  rw [if_pos (by rw [hutf] : utf8Valid (h.size.take 11) = true), hfsr]

/-- The concrete source respects the `io::Read` contract. -/
theorem srcRead_wb : WellBehaved srcRead := by
  constructor
  · intro s L bs s' h
    rw [srcRead] at h
    simp only [Res.ok.injEq, Prod.mk.injEq] at h
    obtain ⟨h1, _⟩ := h
    rw [← h1, List.length_take]
    omega
  · intro s L e h
    rw [srcRead] at h
    exact Res.noConfusion h

/-!
## Claims
-/

/-- C1: the claim requires the ceil contract (`blocks(n) * 512 < n + 512`
for `n > 0`, with `blocks(512) = 1` and `blocks(1024) = 2`), but the code's
`size / 512 + 1` is off by one block at every positive multiple of 512:
`blocks 512 = 2` and `blocks 1024 = 3`, and the upper bound of the ceil
contract fails at `n = 512`.  (The remaining test points `0`, `511`, `513`
do satisfy the contract.) -/
theorem claim_C1_blocks_eval :
    blocks 0 = 0 ∧ blocks 511 = 1 ∧ blocks 512 = 2 ∧ blocks 513 = 2 ∧
    blocks 1024 = 3 ∧ ¬(blocks 512 * 512 < 512 + 512) ∧
    ¬(blocks 1024 = 2) := by decide

/-- C9: `TypeFlag.from_u8` is total — every byte outside the known set maps
to `Other(byte)`; encoding `Regular` gives `'0'` (48), decoding `'5'` (53)
gives `Directory`, and decoding `'Z'` (90) gives `Other 90`. -/
theorem claim_C9_typeflag_total :
    (∀ b : Nat, b ∉ [48, 0, 49, 50, 51, 52, 53, 54, 120, 103] →
      TypeFlag.from_u8 b = .Other b) ∧
    TypeFlag.to_u8 .Regular = 48 ∧
    TypeFlag.from_u8 53 = .Directory ∧
    TypeFlag.from_u8 90 = .Other 90 := by
  refine ⟨?_, by decide, by decide, by decide⟩
  intro b hb
  simp only [List.mem_cons, List.not_mem_nil, or_false, not_or] at hb
  obtain ⟨h1, h2, h3, h4, h5, h6, h7, h8, h9, h10⟩ := hb
  unfold TypeFlag.from_u8
  split_ifs <;> simp_all

/-- C9 witness: the unrecognized byte `'z'` (122) decodes to `Other 122`. -/
theorem claim_C9_witness :
    TypeFlag.from_u8 122 = .Other 122 ∧ TypeFlag.to_u8 .Regular = 48 :=
  ⟨claim_C9_typeflag_total.1 122 (by decide), claim_C9_typeflag_total.2.1⟩

/-- C10: the NUL typeflag byte decodes to `Regular`, the same as `'0'` (48),
so decoding is not injective, and re-encoding the decoded value of `0x00`
yields `'0'` (48), not `0x00`. -/
theorem claim_C10_nul_typeflag :
    TypeFlag.from_u8 0 = .Regular ∧
    TypeFlag.from_u8 0 = TypeFlag.from_u8 48 ∧ (0 : Nat) ≠ 48 ∧
    TypeFlag.to_u8 (TypeFlag.from_u8 0) = 48 ∧
    TypeFlag.to_u8 (TypeFlag.from_u8 0) ≠ 0 := by decide

/-- C2 counterexample: on the size field `"0000000000x "` (a non-octal byte
`'x'` in the octal digits) the size operation panics — it aborts with
a message and does not report a typed error to the caller; and the size
field `"+0000000000 "` (which contains the non-octal-digit byte `'+'`)
is not reported as an error at all: the Rust integer parser accepts the
leading sign and the field decodes successfully to 0. -/
theorem claim_C2_counterexample :
    InnerHeader.sizeVal (hdrWithSize [48, 48, 48, 48, 48, 48, 48, 48, 48, 48, 120, 32]) =
      .fatal "invalid size field, not an octal number" ∧
    (∀ e, InnerHeader.sizeVal (hdrWithSize [48, 48, 48, 48, 48, 48, 48, 48, 48, 48, 120, 32]) ≠
      .err e) ∧
    InnerHeader.sizeVal (hdrWithSize [43, 48, 48, 48, 48, 48, 48, 48, 48, 48, 48, 32]) =
      .ok 0 := by
  refine ⟨by decide, ?_, by decide⟩
  intro e he
  rw [show InnerHeader.sizeVal (hdrWithSize [48, 48, 48, 48, 48, 48, 48, 48, 48, 48, 120, 32]) =
    .fatal "invalid size field, not an octal number" from by decide] at he
  exact Res.noConfusion he

/-- C2 (amended): on every 12-byte size field that is malformed in the
claim's sense — excluding the `'+'`-then-digits shape the integer parser
accepts — the size operation panics (aborts the process with a message)
instead of reporting a typed decode error; no error value is ever
produced. -/
theorem claim_C2_malformed_size_panics (h : InnerHeader) (hlen : h.size.length = 12)
    (hm : MalformedOct h.size ∨ MalformedBin h.size) :
    ∃ m, h.sizeVal = .fatal m := by
  obtain ⟨b0, b1, b2, b3, b4, b5, b6, b7, b8, b9, b10, b11, hsz⟩ := eq_twelve h.size hlen
  rcases hm with ⟨hlt, hrest⟩ | ⟨hge, hpat⟩
  · -- octal mode
    rw [InnerHeader.sizeVal, if_neg (by omega : ¬ 128 ≤ h.size.getD 0 0),
      InnerHeader.size_octal]
    by_cases h32 : h.size.getD 11 0 = 32
    · rcases hrest with hterm | ⟨⟨i, hi, hnd⟩, hnp⟩
      · exact absurd h32 hterm
      · rw [if_pos h32]
        by_cases hutf : utf8Valid (h.size.take 11) = true
        · rw [if_pos hutf]
          have hnone : from_str_radix8 (h.size.take 11) = none := by
            rcases hv : from_str_radix8 (h.size.take 11) with _ | v
            · rfl
            · exfalso
              have htake : h.size.take 11 = [b0, b1, b2, b3, b4, b5, b6, b7, b8, b9, b10] := by
                rw [hsz]; rfl
              rcases from_str_radix8_shape _ v hv with hall | ⟨t, hteq, htall⟩
              · -- every byte of the field is a digit, contradicting index i
                rw [htake] at hall
                have hd0 := hall b0 (by simp)
                have hd1 := hall b1 (by simp)
                have hd2 := hall b2 (by simp)
                have hd3 := hall b3 (by simp)
                have hd4 := hall b4 (by simp)
                have hd5 := hall b5 (by simp)
                have hd6 := hall b6 (by simp)
                have hd7 := hall b7 (by simp)
                have hd8 := hall b8 (by simp)
                have hd9 := hall b9 (by simp)
                have hd10 := hall b10 (by simp)
                apply hnd
                interval_cases i <;> simpa [hsz]
              · -- the field is '+' followed by digits, contradicting hnp
                rw [htake] at hteq
                have hb0 : b0 = 43 := by
                  have := congrArg (fun l => l.getD 0 0) hteq; simpa using this
                have ht : t = [b1, b2, b3, b4, b5, b6, b7, b8, b9, b10] := by
                  have := congrArg List.tail hteq; simpa using this.symm
                rw [ht] at htall
                apply hnp
                refine ⟨by simp [hsz, hb0], ?_⟩
                intro j hj1 hj2
                have hd1 := htall b1 (by simp)
                have hd2 := htall b2 (by simp)
                have hd3 := htall b3 (by simp)
                have hd4 := htall b4 (by simp)
                have hd5 := htall b5 (by simp)
                have hd6 := htall b6 (by simp)
                have hd7 := htall b7 (by simp)
                have hd8 := htall b8 (by simp)
                have hd9 := htall b9 (by simp)
                have hd10 := htall b10 (by simp)
                interval_cases j <;> simpa [hsz]
          rw [hnone]
          exact ⟨_, rfl⟩
        · rw [if_neg hutf]
          exact ⟨_, rfl⟩
    · rw [if_neg h32]
      exact ⟨_, rfl⟩
  · -- binary mode
    rw [InnerHeader.sizeVal, if_pos hge, InnerHeader.size_binary, if_neg hpat]
    exact ⟨_, rfl⟩

/-- C2 witness: a size field of twelve `'x'` bytes is malformed and the
size operation aborts on it. -/
theorem claim_C2_witness :
    ∃ m, (hdrWithSize (List.replicate 12 120)).sizeVal = .fatal m :=
  claim_C2_malformed_size_panics (hdrWithSize (List.replicate 12 120))
    (by decide) (Or.inl (by decide))

/-- C6: an octal size field — byte 0 with its high bit clear, bytes 0-10
ASCII octal digits, byte 11 an ASCII space — decodes to the base-8 value of
bytes 0-10; and decoding the octal encoding of any `s < 8 ^ 11` returns
exactly `s` (round trip). -/
theorem claim_C6_octal_roundtrip :
    (∀ h : InnerHeader, h.size.length = 12 →
      (∀ i < 11, isOctDigit (h.size.getD i 0)) → h.size.getD 11 0 = 32 →
      h.sizeVal = .ok (octValue h.size)) ∧
    (∀ s, s < 8 ^ 11 → (hdrWithSize (encode_octal s)).sizeVal = .ok s) := by
  refine ⟨sizeVal_octal_digits, ?_⟩
  intro s hs
  have hval : octValue (hdrWithSize (encode_octal s)).size = s := by
    show octValue (encode_octal s) = s
    rw [octValue]
    rw [show (encode_octal s).take 11 =
      [48 + s / 8 ^ 10 % 8, 48 + s / 8 ^ 9 % 8, 48 + s / 8 ^ 8 % 8,
       48 + s / 8 ^ 7 % 8, 48 + s / 8 ^ 6 % 8, 48 + s / 8 ^ 5 % 8,
       48 + s / 8 ^ 4 % 8, 48 + s / 8 ^ 3 % 8, 48 + s / 8 ^ 2 % 8,
       48 + s / 8 ^ 1 % 8, 48 + s / 8 ^ 0 % 8] from by rw [encode_octal]; rfl]
    simp only [List.foldl_cons, List.foldl_nil, Nat.add_sub_cancel_left]
    have h0 : s / 8 ^ 10 % 8 = s / 8 ^ 10 := by
      have hlt : s / 8 ^ 10 < 8 := by
        rw [Nat.div_lt_iff_lt_mul (by norm_num : 0 < (8:ℕ) ^ 10)]
        calc s < 8 ^ 11 := hs
          _ = 8 * 8 ^ 10 := by rw [← pow_succ']
      exact Nat.mod_eq_of_lt hlt
    rw [Nat.zero_mul, Nat.zero_add, h0,
      horner8 s 10 9 (by norm_num), horner8 s 9 8 (by norm_num),
      horner8 s 8 7 (by norm_num), horner8 s 7 6 (by norm_num),
      horner8 s 6 5 (by norm_num), horner8 s 5 4 (by norm_num),
      horner8 s 4 3 (by norm_num), horner8 s 3 2 (by norm_num),
      horner8 s 2 1 (by norm_num), horner8 s 1 0 (by norm_num),
      pow_zero, Nat.div_one]
  have hdig : ∀ i < 11, isOctDigit ((hdrWithSize (encode_octal s)).size.getD i 0) := by
    intro i hi
    have hg : (hdrWithSize (encode_octal s)).size.getD i 0 = 48 + s / 8 ^ (10 - i) % 8 := by
      show (encode_octal s).getD i 0 = 48 + s / 8 ^ (10 - i) % 8
      interval_cases i <;> rfl
    rw [hg]
    refine ⟨Nat.le_add_right 48 _, ?_⟩
    generalize s / 8 ^ (10 - i) = u
    omega
  have hout := sizeVal_octal_digits (hdrWithSize (encode_octal s)) rfl hdig rfl
  rw [hout, hval]

/-- C6 witness: the field `"00000000042 "` decodes to 34 (octal 42). -/
theorem claim_C6_witness :
    (hdrWithSize [48, 48, 48, 48, 48, 48, 48, 48, 48, 52, 50, 32]).sizeVal = .ok 34 := by
  have := claim_C6_octal_roundtrip.1 (hdrWithSize [48, 48, 48, 48, 48, 48, 48, 48, 48, 52, 50, 32])
    (by decide) (by decide) (by decide)
  rw [this]
  rfl

/-- C7: a size field `0x80 0 0 0` followed by the eight little-endian bytes
of `n < 2 ^ 64` decodes via the size operation to exactly `n`. -/
theorem claim_C7_binary_decode (h : InnerHeader) (n : Nat) (hn : n < 2 ^ 64)
    (hs : h.size = 128 :: 0 :: 0 :: 0 :: leBytes n) :
    h.sizeVal = .ok n := by
  have hg : h.size.getD 0 0 = 128 := by rw [hs]; rfl
  rw [InnerHeader.sizeVal, if_pos (by rw [hg] : 128 ≤ h.size.getD 0 0),
    InnerHeader.size_binary,
    if_pos ⟨hg, by rw [hs]; rfl, by rw [hs]; rfl, by rw [hs]; rfl⟩]
  have hdt : (h.size.drop 4).take 8 = leBytes n := by
    rw [hs]
    show (leBytes n).take 8 = leBytes n
    rw [leBytes]
    rfl
  rw [hdt, leBytes, from_le_bytes]
  simp only [List.foldr_cons, List.foldr_nil]
  have hn8 : n < 256 ^ 8 := by
    rw [show (256:ℕ) ^ 8 = 2 ^ 64 from by norm_num]
    exact hn
  have h0 : n / 256 ^ 7 % 256 = n / 256 ^ 7 := by
    have hlt : n / 256 ^ 7 < 256 := by
      rw [Nat.div_lt_iff_lt_mul (by norm_num : 0 < (256:ℕ) ^ 7)]
      calc n < 256 ^ 8 := hn8
        _ = 256 * 256 ^ 7 := by rw [← pow_succ']
    exact Nat.mod_eq_of_lt hlt
  rw [Nat.zero_mul, Nat.zero_add, h0,
    horner256 n 7 6 (by norm_num), horner256 n 6 5 (by norm_num),
    horner256 n 5 4 (by norm_num), horner256 n 4 3 (by norm_num),
    horner256 n 3 2 (by norm_num), horner256 n 2 1 (by norm_num),
    horner256 n 1 0 (by norm_num), pow_zero, Nat.div_one]

/-- C7 witness: the binary field for `n = 2 ^ 63 + 5` decodes to it. -/
theorem claim_C7_witness :
    (hdrWithSize (128 :: 0 :: 0 :: 0 :: leBytes (2 ^ 63 + 5))).sizeVal =
      .ok (2 ^ 63 + 5) :=
  claim_C7_binary_decode (hdrWithSize (128 :: 0 :: 0 :: 0 :: leBytes (2 ^ 63 + 5)))
    (2 ^ 63 + 5) (by norm_num) rfl

/-- C8: for a header whose `name` and `prefix` fields are NUL-free content
followed by NUL padding (100 and 155 bytes respectively), `path` is
`prefix ++ "/" ++ name` when the prefix content is non-empty (equivalently
its first byte is not NUL), else `name` alone, with the padding trimmed. -/
theorem claim_C8_path (hdr : InnerHeader) (nm pfxc npad ppad : List Nat)
    (hnm : ∀ b ∈ nm, b ≠ 0) (hpc : ∀ b ∈ pfxc, b ≠ 0)
    (hnp : ∀ b ∈ npad, b = 0) (hpp : ∀ b ∈ ppad, b = 0)
    (hlen1 : nm.length + npad.length = 100) (hlen2 : pfxc.length + ppad.length = 155)
    (hn : hdr.name = nm ++ npad) (hp : hdr.pfx = pfxc ++ ppad) :
    hdr.path = if pfxc = [] then nm else pfxc ++ 47 :: nm := by
  rw [InnerHeader.path]
  cases pfxc with
  | nil =>
    have hpplen : ppad.length = 155 := by simpa using hlen2
    have h0 : hdr.pfx.getD 0 0 = 0 := by
      rw [hp, List.nil_append]
      cases ppad with
      | nil => simp at hpplen
      | cons q t => simpa using hpp q (List.mem_cons_self q t)
    rw [if_pos h0, hn, trim_slice_padded nm npad hnm hnp]
    simp
  | cons c t =>
    have hc : c ≠ 0 := hpc c (List.mem_cons_self c t)
    have h0 : ¬ hdr.pfx.getD 0 0 = 0 := by
      rw [hp]; simpa using hc
    rw [if_neg h0, InnerHeader.full_name, hp, hn,
      trim_slice_padded _ _ hpc hpp, trim_slice_padded _ _ hnm hnp]
    simp

/-- C8 witness: prefix `"usr/local"` with name `"bin/tool"` yields
`"usr/local/bin/tool"`, and an all-NUL prefix with name `"file.txt"`
yields `"file.txt"`. -/
theorem claim_C8_witness :
    (hdrWithPath ([98, 105, 110, 47, 116, 111, 111, 108] ++ List.replicate 92 0)
        ([117, 115, 114, 47, 108, 111, 99, 97, 108] ++ List.replicate 146 0)).path =
      [117, 115, 114, 47, 108, 111, 99, 97, 108, 47,
       98, 105, 110, 47, 116, 111, 111, 108] ∧
    (hdrWithPath ([102, 105, 108, 101, 46, 116, 120, 116] ++ List.replicate 92 0)
        (List.replicate 155 0)).path = [102, 105, 108, 101, 46, 116, 120, 116] := by
  constructor
  · rw [claim_C8_path _ [98, 105, 110, 47, 116, 111, 111, 108]
      [117, 115, 114, 47, 108, 111, 99, 97, 108] (List.replicate 92 0)
      (List.replicate 146 0) (by decide) (by decide) (by decide) (by decide)
      (by decide) (by decide) rfl rfl]
    decide
  · rw [claim_C8_path _ [102, 105, 108, 101, 46, 116, 120, 116] []
      (List.replicate 92 0) (List.replicate 155 0) (by decide) (by decide)
      (by decide) (by decide) (by decide) (by decide) rfl rfl]
    decide

/-- C3 counterexample: with `body_left = 0` a body read still issues a
(zero-length) read to the underlying source: the call-counting source's
state advances from 0 to 1, and an always-erroring source's `io::Error`
is propagated to the caller — so the read neither avoids the source nor
is guaranteed not to error. -/
theorem claim_C3_counterexample :
    tarRead errSrc ⟨(), 5, 0⟩ 10 = (.err "source failure", ⟨(), 5, 0⟩) ∧
    tarRead countSrc ⟨0, 5, 0⟩ 10 = (.ok 0, ⟨1, 5, 0⟩) := by
  constructor <;> rfl

/-- C3 (amended): for a well-behaved source and a reader state satisfying
the invariant `body_left ≤ pending_skip`, a successful body read of a
`max_len` buffer obtains `n ≤ min(body_left, max_len)` bytes and decrements
both counters by exactly `n`; the read never aborts; and when
`body_left = 0` the operation issues one zero-length read to the source,
returning 0 bytes and leaving both counters unchanged if it succeeds, and
propagating its `io::Error` (with the reader unchanged) if it fails. -/
theorem claim_C3_body_read {σ : Type} (rd : σ → Nat → Res (List Nat × σ))
    (hwb : WellBehaved rd) (r : TarReader σ) (L : Nat)
    (hinv : r.data_left ≤ r.next_header) :
    (∀ n r', tarRead rd r L = (.ok n, r') →
      n ≤ min r.data_left L ∧ r'.data_left = r.data_left - n ∧
      r'.next_header = r.next_header - n) ∧
    (∀ e r', tarRead rd r L ≠ (.fatal e, r')) ∧
    (r.data_left = 0 →
      (∀ bs s', rd r.tar 0 = .ok (bs, s') →
        tarRead rd r L = (.ok 0, ⟨s', r.next_header, 0⟩)) ∧
      (∀ e, rd r.tar 0 = .err e → tarRead rd r L = (.err e, r))) := by
  have hmin : min r.data_left L ≤ r.data_left := min_le_left _ _
  cases hr : rd r.tar (min r.data_left L) with
  | ok p =>
    obtain ⟨bs, s'⟩ := p
    have hlen : bs.length ≤ min r.data_left L := hwb.1 _ _ _ _ hr
    have h1 : bs.length ≤ r.data_left := hlen.trans hmin
    have h2 : bs.length ≤ r.next_header := h1.trans hinv
    have hout : tarRead rd r L =
        (.ok bs.length, ⟨s', r.next_header - bs.length, r.data_left - bs.length⟩) := by
      rw [tarRead, hr]
      simp only [if_pos h1, if_pos h2]
    refine ⟨?_, ?_, ?_⟩
    · intro n r' h
      rw [hout] at h
      simp only [Prod.mk.injEq, Res.ok.injEq] at h
      obtain ⟨hn, hr'⟩ := h
      subst hn
      rw [← hr']
      exact ⟨hlen, rfl, rfl⟩
    · intro e r' h
      rw [hout] at h
      simp [Prod.ext_iff] at h
    · intro hdl
      have h0 : min r.data_left L = 0 := by rw [hdl]; simp
      rw [h0] at hr
      have hbs : bs.length = 0 := by
        rw [h0] at hlen; omega
      constructor
      · intro bs2 s2 hok
        rw [hok] at hr
        simp only [Res.ok.injEq, Prod.mk.injEq] at hr
        obtain ⟨_, hs2⟩ := hr
        rw [hout, hbs, hs2, hdl]
        simp
      · intro e he
        rw [he] at hr
        exact Res.noConfusion hr
  | err e0 =>
    have hout : tarRead rd r L = (.err e0, r) := by rw [tarRead, hr]
    refine ⟨?_, ?_, ?_⟩
    · intro n r' h
      rw [hout] at h
      simp [Prod.ext_iff] at h
    · intro e r' h
      rw [hout] at h
      simp [Prod.ext_iff] at h
    · intro hdl
      have h0 : min r.data_left L = 0 := by rw [hdl]; simp
      rw [h0] at hr
      constructor
      · intro bs2 s2 hok
        rw [hok] at hr
        exact Res.noConfusion hr
      · intro e he
        rw [he] at hr
        obtain rfl : e = e0 := Res.err.inj hr
        exact hout
  | fatal e0 =>
    exact absurd hr (hwb.2 _ _ _)

/-- C3 witness: on a concrete source with data `[1, 2, 3]`, reading with a
2-byte buffer from a reader with `body_left = 3`, `pending_skip = 10`
obtains 2 bytes and decrements both counters by 2. -/
theorem claim_C3_witness :
    (2 : Nat) ≤ min 3 2 ∧
    (TarReader.mk (⟨[3], []⟩ : StreamSrc) 8 1).data_left = 3 - 2 ∧
    (TarReader.mk (⟨[3], []⟩ : StreamSrc) 8 1).next_header = 10 - 2 :=
  (claim_C3_body_read srcRead srcRead_wb ⟨⟨[1, 2, 3], []⟩, 10, 3⟩ 2 (by norm_num)).1
    2 ⟨⟨[3], []⟩, 8, 1⟩ rfl


theorem capNow_le (s : StreamSrc) : capNow s ≤ s.data.length := by
  rw [capNow]
  cases hc : s.caps with
  | nil => exact le_refl _
  | cons c cs => exact min_le_right _ _

theorem capNow_pos (s : StreamSrc) (hg : GoodCaps s.caps) (hd : 1 ≤ s.data.length) :
    1 ≤ capNow s := by
  rw [capNow]
  cases hc : s.caps with
  | nil => exact hd
  | cons c cs =>
    have := hg c (by rw [hc]; exact List.mem_cons_self c cs)
    simp only [ge_iff_le, le_min_iff]
    exact ⟨this, hd⟩

theorem GoodCaps_drop (caps : List Nat) (hg : GoodCaps caps) (m : Nat) :
    GoodCaps (caps.drop m) :=
  fun c hc => hg c (List.mem_of_mem_drop hc)

theorem skipLoop_nh_le {σ : Type} (rd : σ → Nat → Res (List Nat × σ)) :
    ∀ nh s res s' nh', skipLoop rd s nh = (res, s', nh') → nh' ≤ nh := by
  intro nh
  induction nh using Nat.strong_induction_on with
  | _ nh ih =>
    intro s res s' nh' h
    rw [skipLoop] at h
    split at h
    · simp only [Prod.mk.injEq] at h
      omega
    · split at h
      · simp only [Prod.mk.injEq] at h
        omega
      · simp only [Prod.mk.injEq] at h
        omega
      · next bs s2 heq =>
        split at h
        · simp only [Prod.mk.injEq] at h
          omega
        · split at h
          · next h0 hb0 hble =>
            have := ih (nh - bs.length) (by omega) s2 res s' nh' h
            omega
          · simp only [Prod.mk.injEq] at h
            omega

theorem skipLoop_src_ok : ∀ nh data caps, GoodCaps caps → nh ≤ data.length →
    ∃ m, skipLoop srcRead ⟨data, caps⟩ nh = (.ok (), ⟨data.drop nh, caps.drop m⟩, 0) := by
  intro nh
  induction nh using Nat.strong_induction_on with
  | _ nh ih =>
    intro data caps hg hle
    by_cases h0 : nh = 0
    · subst h0
      refine ⟨0, ?_⟩
      rw [skipLoop]
      simp
    · have hd1 : 1 ≤ data.length := by omega
      have hcap1 : 1 ≤ capNow ⟨data, caps⟩ := capNow_pos _ hg hd1
      have hcaple : capNow ⟨data, caps⟩ ≤ data.length := capNow_le _
      have hk1 : 1 ≤ min (min nh 512) (capNow ⟨data, caps⟩) := by omega
      have hkn : min (min nh 512) (capNow ⟨data, caps⟩) ≤ nh := by omega
      have hkd : min (min nh 512) (capNow ⟨data, caps⟩) ≤ data.length := by omega
      have hsr : srcRead ⟨data, caps⟩ (min nh 512) =
          .ok (data.take (min (min nh 512) (capNow ⟨data, caps⟩)),
            ⟨data.drop (min (min nh 512) (capNow ⟨data, caps⟩)), caps.tail⟩) := by
        rw [srcRead]
      obtain ⟨m', ihm⟩ := ih (nh - min (min nh 512) (capNow ⟨data, caps⟩)) (by omega)
        (data.drop (min (min nh 512) (capNow ⟨data, caps⟩))) caps.tail
        (fun c hc => hg c (List.mem_of_mem_tail hc))
        (by rw [List.length_drop]; omega)
      refine ⟨m' + 1, ?_⟩
      rw [skipLoop, dif_neg h0, hsr]
      have hlen : (data.take (min (min nh 512) (capNow ⟨data, caps⟩))).length =
          min (min nh 512) (capNow ⟨data, caps⟩) := by
        rw [List.length_take]; omega
      simp only [hlen]
      rw [dif_neg (by omega), dif_pos hkn, ihm, List.drop_drop]
      have e1 : min (min nh 512) (capNow ⟨data, caps⟩) +
          (nh - min (min nh 512) (capNow ⟨data, caps⟩)) = nh := by omega
      have e2 : caps.tail.drop m' = caps.drop (m' + 1) := by
        cases caps <;> simp
      rw [e1, e2]

theorem skipLoop_src_eof : ∀ nh data caps, GoodCaps caps → data.length < nh →
    ∃ m, skipLoop srcRead ⟨data, caps⟩ nh =
      (.err "unexpected EOF while skipping to next file",
       ⟨[], caps.drop m⟩, nh - data.length) := by
  intro nh
  induction nh using Nat.strong_induction_on with
  | _ nh ih =>
    intro data caps hg hlt
    have h0 : nh ≠ 0 := by omega
    by_cases hd : data.length = 0
    · have hdata : data = [] := List.length_eq_zero.mp hd
      subst hdata
      refine ⟨1, ?_⟩
      have hsr : srcRead ⟨[], caps⟩ (min nh 512) = .ok ([], ⟨[], caps.tail⟩) := by
        rw [srcRead]
        simp [capNow]
      rw [skipLoop, dif_neg h0, hsr]
      have htl : caps.tail = caps.drop 1 := by cases caps <;> simp
      rw [htl]
      simp only [List.length_nil]
      rw [dif_pos True.intro]
      simp
    · have hd1 : 1 ≤ data.length := by omega
      have hcap1 : 1 ≤ capNow ⟨data, caps⟩ := capNow_pos _ hg hd1
      have hcaple : capNow ⟨data, caps⟩ ≤ data.length := capNow_le _
      have hk1 : 1 ≤ min (min nh 512) (capNow ⟨data, caps⟩) := by omega
      have hkn : min (min nh 512) (capNow ⟨data, caps⟩) ≤ nh := by omega
      have hkd : min (min nh 512) (capNow ⟨data, caps⟩) ≤ data.length := by omega
      have hsr : srcRead ⟨data, caps⟩ (min nh 512) =
          .ok (data.take (min (min nh 512) (capNow ⟨data, caps⟩)),
            ⟨data.drop (min (min nh 512) (capNow ⟨data, caps⟩)), caps.tail⟩) := by
        rw [srcRead]
      obtain ⟨m', ihm⟩ := ih (nh - min (min nh 512) (capNow ⟨data, caps⟩)) (by omega)
        (data.drop (min (min nh 512) (capNow ⟨data, caps⟩))) caps.tail
        (fun c hc => hg c (List.mem_of_mem_tail hc))
        (by rw [List.length_drop]; omega)
      refine ⟨m' + 1, ?_⟩
      rw [skipLoop, dif_neg h0, hsr]
      have hlen : (data.take (min (min nh 512) (capNow ⟨data, caps⟩))).length =
          min (min nh 512) (capNow ⟨data, caps⟩) := by
        rw [List.length_take]; omega
      simp only [hlen]
      rw [dif_neg (by omega), dif_pos hkn, ihm]
      have e1 : nh - min (min nh 512) (capNow ⟨data, caps⟩) -
          (data.drop (min (min nh 512) (capNow ⟨data, caps⟩))).length =
          nh - data.length := by
        rw [List.length_drop]; omega
      have e2 : caps.tail.drop m' = caps.drop (m' + 1) := by
        cases caps <;> simp
      rw [List.length_drop] at e1 ⊢
      rw [show nh - min (min nh 512) (capNow ⟨data, caps⟩) -
          (data.length - min (min nh 512) (capNow ⟨data, caps⟩)) = nh - data.length
        from by omega, e2]

theorem fillLoop_src_ok : ∀ n data, data.length = n → ∀ acc caps, GoodCaps caps →
    acc.length ≤ 512 → 512 - acc.length ≤ data.length →
    ∃ m, fillLoop srcRead ⟨data, caps⟩ acc =
      (.ok (acc ++ data.take (512 - acc.length)),
       ⟨data.drop (512 - acc.length), caps.drop m⟩) := by
  intro n
  induction n using Nat.strong_induction_on with
  | _ n ih =>
    intro data hn acc caps hg hacc hneed
    by_cases hfull : acc.length = 512
    · refine ⟨0, ?_⟩
      rw [fillLoop, dif_pos hfull, hfull]
      simp
    · have hlt : acc.length < 512 := by omega
      have hd1 : 1 ≤ data.length := by omega
      have hcap1 : 1 ≤ capNow ⟨data, caps⟩ := capNow_pos _ hg hd1
      have hcaple : capNow ⟨data, caps⟩ ≤ data.length := capNow_le _
      have hq1 : 1 ≤ 512 - acc.length := by omega
      have hk1 : 1 ≤ min (512 - acc.length) (capNow ⟨data, caps⟩) := by omega
      have hkq : min (512 - acc.length) (capNow ⟨data, caps⟩) ≤ 512 - acc.length := by omega
      have hkd : min (512 - acc.length) (capNow ⟨data, caps⟩) ≤ data.length := by omega
      have hsr : srcRead ⟨data, caps⟩ (512 - acc.length) =
          .ok (data.take (min (512 - acc.length) (capNow ⟨data, caps⟩)),
            ⟨data.drop (min (512 - acc.length) (capNow ⟨data, caps⟩)), caps.tail⟩) := by
        rw [srcRead]
      have hlen : (data.take (min (512 - acc.length) (capNow ⟨data, caps⟩))).length =
          min (512 - acc.length) (capNow ⟨data, caps⟩) := by
        rw [List.length_take]; omega
      obtain ⟨m', ihm⟩ := ih
        (data.drop (min (512 - acc.length) (capNow ⟨data, caps⟩))).length
        (by rw [List.length_drop]; omega)
        (data.drop (min (512 - acc.length) (capNow ⟨data, caps⟩))) rfl
        (acc ++ data.take (min (512 - acc.length) (capNow ⟨data, caps⟩))) caps.tail
        (fun c hc => hg c (List.mem_of_mem_tail hc))
        (by rw [List.length_append, hlen]; omega)
        (by rw [List.length_append, hlen, List.length_drop]; omega)
      refine ⟨m' + 1, ?_⟩
      rw [fillLoop, dif_neg hfull, dif_neg (by omega : ¬ 512 < acc.length), hsr]
      simp only [hlen]
      rw [dif_neg (by omega), ihm]
      have e0 : (acc ++ data.take (min (512 - acc.length) (capNow ⟨data, caps⟩))).length =
          acc.length + min (512 - acc.length) (capNow ⟨data, caps⟩) := by
        rw [List.length_append, hlen]
      rw [e0]
      have e1 : acc ++ data.take (min (512 - acc.length) (capNow ⟨data, caps⟩)) ++
          (data.drop (min (512 - acc.length) (capNow ⟨data, caps⟩))).take
            (512 - (acc.length + min (512 - acc.length) (capNow ⟨data, caps⟩))) =
          acc ++ data.take (512 - acc.length) := by
        rw [List.append_assoc]
        congr 1
        rw [← List.take_add]
        congr 1
        omega
      have e2 : (data.drop (min (512 - acc.length) (capNow ⟨data, caps⟩))).drop
          (512 - (acc.length + min (512 - acc.length) (capNow ⟨data, caps⟩))) =
          data.drop (512 - acc.length) := by
        rw [List.drop_drop]
        congr 1
        omega
      have e3 : caps.tail.drop m' = caps.drop (m' + 1) := by
        cases caps <;> simp
      rw [e1, e2, e3]

theorem fillLoop_src_eof : ∀ n data, data.length = n → ∀ acc caps, GoodCaps caps →
    acc.length ≤ 512 → acc.length + data.length < 512 →
    ∃ m, fillLoop srcRead ⟨data, caps⟩ acc =
      (.err "unexpected EOF while reading next header", ⟨[], caps.drop m⟩) := by
  intro n
  induction n using Nat.strong_induction_on with
  | _ n ih =>
    intro data hn acc caps hg hacc hlt
    have hfull : ¬ acc.length = 512 := by omega
    by_cases hd : data.length = 0
    · have hdata : data = [] := List.length_eq_zero.mp hd
      subst hdata
      refine ⟨1, ?_⟩
      have hsr : srcRead ⟨[], caps⟩ (512 - acc.length) = .ok ([], ⟨[], caps.tail⟩) := by
        rw [srcRead]
        simp [capNow]
      have htl : caps.tail = caps.drop 1 := by cases caps <;> simp
      rw [fillLoop, dif_neg hfull, dif_neg (by omega : ¬ 512 < acc.length), hsr, htl]
      simp only [List.length_nil]
      rw [dif_pos True.intro]
    · have hd1 : 1 ≤ data.length := by omega
      have hcap1 : 1 ≤ capNow ⟨data, caps⟩ := capNow_pos _ hg hd1
      have hcaple : capNow ⟨data, caps⟩ ≤ data.length := capNow_le _
      have hq1 : 1 ≤ 512 - acc.length := by omega
      have hk1 : 1 ≤ min (512 - acc.length) (capNow ⟨data, caps⟩) := by omega
      have hkd : min (512 - acc.length) (capNow ⟨data, caps⟩) ≤ data.length := by omega
      have hsr : srcRead ⟨data, caps⟩ (512 - acc.length) =
          .ok (data.take (min (512 - acc.length) (capNow ⟨data, caps⟩)),
            ⟨data.drop (min (512 - acc.length) (capNow ⟨data, caps⟩)), caps.tail⟩) := by
        rw [srcRead]
      have hlen : (data.take (min (512 - acc.length) (capNow ⟨data, caps⟩))).length =
          min (512 - acc.length) (capNow ⟨data, caps⟩) := by
        rw [List.length_take]; omega
      obtain ⟨m', ihm⟩ := ih
        (data.drop (min (512 - acc.length) (capNow ⟨data, caps⟩))).length
        (by rw [List.length_drop]; omega)
        (data.drop (min (512 - acc.length) (capNow ⟨data, caps⟩))) rfl
        (acc ++ data.take (min (512 - acc.length) (capNow ⟨data, caps⟩))) caps.tail
        (fun c hc => hg c (List.mem_of_mem_tail hc))
        (by rw [List.length_append, hlen]; omega)
        (by rw [List.length_append, hlen, List.length_drop]; omega)
      refine ⟨m' + 1, ?_⟩
      rw [fillLoop, dif_neg hfull, dif_neg (by omega : ¬ 512 < acc.length), hsr]
      simp only [hlen]
      rw [dif_neg (by omega), ihm]
      have e3 : caps.tail.drop m' = caps.drop (m' + 1) := by
        cases caps <;> simp
      rw [e3]

theorem sizeVal_no_err (h : InnerHeader) (e : String) : h.sizeVal ≠ .err e := by
  rw [InnerHeader.sizeVal]
  split
  · rw [InnerHeader.size_binary]
    split <;> intro hc <;> exact Res.noConfusion hc
  · rw [InnerHeader.size_octal]
    split
    · split
      · split <;> intro hc <;> exact Res.noConfusion hc
      · intro hc; exact Res.noConfusion hc
    · intro hc; exact Res.noConfusion hc

theorem decodeHeader_name0 (blk : List Nat) :
    (decodeHeader blk).name.getD 0 0 = blk.getD 0 0 := by
  rw [decodeHeader]
  cases blk <;> rfl

theorem nextEntry_src_skip_eof (data caps : List Nat) (nh dl : Nat)
    (hg : GoodCaps caps) (hlt : data.length < nh) :
    ∃ m, nextEntry srcRead ⟨⟨data, caps⟩, nh, dl⟩ =
      (.err "unexpected EOF while skipping to next file",
       ⟨⟨[], caps.drop m⟩, nh - data.length, dl⟩) := by
  obtain ⟨m, hsk⟩ := skipLoop_src_eof nh data caps hg hlt
  exact ⟨m, by rw [nextEntry, hsk]⟩

theorem nextEntry_src_boundary (data caps : List Nat) (nh dl : Nat)
    (hg : GoodCaps caps) (heq : data.length = nh) :
    ∃ m, nextEntry srcRead ⟨⟨data, caps⟩, nh, dl⟩ =
      (.ok none, ⟨⟨[], caps.drop m⟩, 0, 0⟩) := by
  obtain ⟨m1, hsk⟩ := skipLoop_src_ok nh data caps hg (by omega)
  have hnil : data.drop nh = [] := List.drop_eq_nil_of_le (by omega)
  have hsr : srcRead ⟨data.drop nh, caps.drop m1⟩ 512 =
      .ok ([], ⟨[], caps.drop (m1 + 1)⟩) := by
    rw [srcRead, hnil]
    simp [capNow, List.tail_drop]
  refine ⟨m1 + 1, ?_⟩
  rw [nextEntry, hsk]
  simp only [hsr]
  simp

theorem nextEntry_src_partial (data caps : List Nat) (nh dl : Nat)
    (hg : GoodCaps caps) (h1 : nh < data.length) (h2 : data.length < nh + 512) :
    ∃ m, nextEntry srcRead ⟨⟨data, caps⟩, nh, dl⟩ =
      (.err "unexpected EOF while reading next header", ⟨⟨[], caps.drop m⟩, 0, 0⟩) := by
  obtain ⟨m1, hsk⟩ := skipLoop_src_ok nh data caps hg (by omega)
  have hg1 : GoodCaps (caps.drop m1) := GoodCaps_drop caps hg m1
  have hrlen : (data.drop nh).length = data.length - nh := List.length_drop nh data
  have hr1 : 1 ≤ (data.drop nh).length := by omega
  have hcap1 : 1 ≤ capNow ⟨data.drop nh, caps.drop m1⟩ := capNow_pos _ hg1 hr1
  have hcaple : capNow ⟨data.drop nh, caps.drop m1⟩ ≤ (data.drop nh).length := capNow_le _
  have hsr : srcRead ⟨data.drop nh, caps.drop m1⟩ 512 =
      .ok ((data.drop nh).take (min 512 (capNow ⟨data.drop nh, caps.drop m1⟩)),
        ⟨(data.drop nh).drop (min 512 (capNow ⟨data.drop nh, caps.drop m1⟩)),
         caps.drop (m1 + 1)⟩) := by
    rw [srcRead, List.tail_drop]
  have hlen : ((data.drop nh).take (min 512 (capNow ⟨data.drop nh, caps.drop m1⟩))).length =
      min 512 (capNow ⟨data.drop nh, caps.drop m1⟩) := by
    rw [List.length_take]; omega
  obtain ⟨m2, hfill⟩ := fillLoop_src_eof
    ((data.drop nh).drop (min 512 (capNow ⟨data.drop nh, caps.drop m1⟩))).length
    _ rfl
    ((data.drop nh).take (min 512 (capNow ⟨data.drop nh, caps.drop m1⟩)))
    (caps.drop (m1 + 1))
    (GoodCaps_drop caps hg (m1 + 1))
    (by rw [hlen]; omega)
    (by rw [hlen, List.length_drop, hrlen]; omega)
  refine ⟨m1 + 1 + m2, ?_⟩
  rw [nextEntry, hsk]
  simp only [hsr]
  have hne : ¬ ((data.drop nh).take
      (min 512 (capNow ⟨data.drop nh, caps.drop m1⟩))).length = 0 := by
    rw [hlen]; omega
  rw [if_neg hne]
  simp only [hfill]
  rw [List.drop_drop]

theorem nextEntry_src_full (data caps : List Nat) (nh dl : Nat)
    (hg : GoodCaps caps) (hfull : nh + 512 ≤ data.length) :
    ∃ m, nextEntry srcRead ⟨⟨data, caps⟩, nh, dl⟩ =
      (if (decodeHeader ((data.drop nh).take 512)).name.getD 0 0 = 0 then
        (.ok none, ⟨⟨data.drop (nh + 512), caps.drop m⟩, 0, 0⟩)
       else
        match (decodeHeader ((data.drop nh).take 512)).sizeVal with
        | .ok sz => (.ok (some (decodeHeader ((data.drop nh).take 512))),
                     ⟨⟨data.drop (nh + 512), caps.drop m⟩, blocks sz * 512 % 2 ^ 64, sz⟩)
        | .err e => (.err e, ⟨⟨data.drop (nh + 512), caps.drop m⟩, 0, 0⟩)
        | .fatal e => (.fatal e, ⟨⟨data.drop (nh + 512), caps.drop m⟩, 0, 0⟩)) := by
  obtain ⟨m1, hsk⟩ := skipLoop_src_ok nh data caps hg (by omega)
  have hg1 : GoodCaps (caps.drop m1) := GoodCaps_drop caps hg m1
  have hrlen : (data.drop nh).length = data.length - nh := List.length_drop nh data
  have hr1 : 1 ≤ (data.drop nh).length := by omega
  have hcap1 : 1 ≤ capNow ⟨data.drop nh, caps.drop m1⟩ := capNow_pos _ hg1 hr1
  have hcaple : capNow ⟨data.drop nh, caps.drop m1⟩ ≤ (data.drop nh).length := capNow_le _
  have hk512 : min 512 (capNow ⟨data.drop nh, caps.drop m1⟩) ≤ 512 := min_le_left _ _
  have hsr : srcRead ⟨data.drop nh, caps.drop m1⟩ 512 =
      .ok ((data.drop nh).take (min 512 (capNow ⟨data.drop nh, caps.drop m1⟩)),
        ⟨(data.drop nh).drop (min 512 (capNow ⟨data.drop nh, caps.drop m1⟩)),
         caps.drop (m1 + 1)⟩) := by
    rw [srcRead, List.tail_drop]
  have hlen : ((data.drop nh).take (min 512 (capNow ⟨data.drop nh, caps.drop m1⟩))).length =
      min 512 (capNow ⟨data.drop nh, caps.drop m1⟩) := by
    rw [List.length_take]; omega
  obtain ⟨m2, hfill⟩ := fillLoop_src_ok
    ((data.drop nh).drop (min 512 (capNow ⟨data.drop nh, caps.drop m1⟩))).length
    _ rfl
    ((data.drop nh).take (min 512 (capNow ⟨data.drop nh, caps.drop m1⟩)))
    (caps.drop (m1 + 1))
    (GoodCaps_drop caps hg (m1 + 1))
    (by rw [hlen]; omega)
    (by rw [hlen, List.length_drop, hrlen]; omega)
  refine ⟨m1 + 1 + m2, ?_⟩
  rw [nextEntry, hsk]
  simp only [hsr]
  have hne : ¬ ((data.drop nh).take
      (min 512 (capNow ⟨data.drop nh, caps.drop m1⟩))).length = 0 := by
    rw [hlen]; omega
  rw [if_neg hne]
  simp only [hfill, hlen]
  have hblk : (data.drop nh).take (min 512 (capNow ⟨data.drop nh, caps.drop m1⟩)) ++
      ((data.drop nh).drop (min 512 (capNow ⟨data.drop nh, caps.drop m1⟩))).take
        (512 - min 512 (capNow ⟨data.drop nh, caps.drop m1⟩)) =
      (data.drop nh).take 512 := by
    rw [← List.take_add]
    congr 1
    omega
  have hdrp : ((data.drop nh).drop (min 512 (capNow ⟨data.drop nh, caps.drop m1⟩))).drop
      (512 - min 512 (capNow ⟨data.drop nh, caps.drop m1⟩)) =
      data.drop (nh + 512) := by
    rw [List.drop_drop, List.drop_drop]
    congr 1
    omega
  have hcd : (List.drop m2 (List.drop (m1 + 1) caps)) = caps.drop (m1 + 1 + m2) := by
    rw [List.drop_drop]
  rw [hblk, hdrp, hcd]
  split
  · rfl
  · split
    · next e heq => rw [heq]
    · next e heq => rw [heq]
    · next sz heq => rw [heq]

theorem take_getD0 (l : List Nat) : (l.take 512).getD 0 0 = l.getD 0 0 := by
  cases l <;> rfl

theorem drop_nh_getD0 (data : List Nat) (nh : Nat) :
    (data.drop nh).getD 0 0 = data.getD nh 0 := by
  simp only [List.getD_eq_getElem?_getD, List.getElem?_drop, Nat.add_zero]

/-- C4: next_entry returns None (no more entries, not an error) exactly when the
first read of the header block yields zero bytes at a block boundary (source
exhausted exactly at the end of the skip region) or a fully-read header block's
name field begins with a NUL byte; and it fails with an unexpected-EOF error
exactly when the source yields zero bytes mid-skip (pending skip not yet
exhausted) or after a header block was only partially obtained. -/
theorem claim_C4_next_entry_ends (data caps : List Nat) (nh dl : Nat) (hg : GoodCaps caps) :
    ((nextEntry srcRead ⟨⟨data, caps⟩, nh, dl⟩).1 = .ok none ↔
      (data.length = nh ∨ (nh + 512 ≤ data.length ∧ data.getD nh 0 = 0))) ∧
    ((∃ e, (nextEntry srcRead ⟨⟨data, caps⟩, nh, dl⟩).1 = .err e) ↔
      (data.length < nh ∨ (nh < data.length ∧ data.length < nh + 512))) := by
  rcases Nat.lt_trichotomy data.length nh with hlt | heq | hgt
  · obtain ⟨m, hne⟩ := nextEntry_src_skip_eof data caps nh dl hg hlt
    rw [hne]
    exact ⟨iff_of_false (by simp) (by omega),
      iff_of_true ⟨_, rfl⟩ (Or.inl hlt)⟩
  · obtain ⟨m, hne⟩ := nextEntry_src_boundary data caps nh dl hg heq
    rw [hne]
    exact ⟨iff_of_true rfl (Or.inl heq),
      iff_of_false (by simp) (by omega)⟩
  · by_cases hfull : nh + 512 ≤ data.length
    · obtain ⟨m, hne⟩ := nextEntry_src_full data caps nh dl hg hfull
      have hname : (decodeHeader ((data.drop nh).take 512)).name.getD 0 0 =
          data.getD nh 0 := by
        rw [decodeHeader_name0, take_getD0, drop_nh_getD0]
      rw [hne, hname]
      by_cases h0 : data.getD nh 0 = 0
      · rw [if_pos h0]
        exact ⟨iff_of_true rfl (Or.inr ⟨hfull, h0⟩),
          iff_of_false (by simp) (by omega)⟩
      · rw [if_neg h0]
        cases hsv : (decodeHeader ((data.drop nh).take 512)).sizeVal with
        | ok sz =>
          exact ⟨iff_of_false (by simp) (by omega),
            iff_of_false (by simp) (by omega)⟩
        | err e => exact absurd hsv (sizeVal_no_err _ e)
        | fatal e =>
          exact ⟨iff_of_false (by simp) (by omega),
            iff_of_false (by simp) (by omega)⟩
    · have h2 : data.length < nh + 512 := by omega
      obtain ⟨m, hne⟩ := nextEntry_src_partial data caps nh dl hg hgt h2
      rw [hne]
      exact ⟨iff_of_false (by simp) (by omega),
        iff_of_true ⟨_, rfl⟩ (Or.inr ⟨hgt, h2⟩)⟩

theorem le_blocks_mul (sz : Nat) : sz ≤ blocks sz * 512 := by
  rw [blocks]
  split <;> omega

theorem blocks_mul_lt (sz : Nat) (h : sz < 2 ^ 64 - 512) : blocks sz * 512 < 2 ^ 64 := by
  have h64 : (2 : Nat) ^ 64 = 18446744073709551616 := by norm_num
  rw [h64] at h ⊢
  rw [blocks]
  split
  · omega
  · have hd := Nat.div_mul_le_self sz 512
    omega

theorem blocks_mul_wrap (sz : Nat) (h1 : 2 ^ 64 - 512 ≤ sz) (h2 : sz < 2 ^ 64) :
    blocks sz * 512 % 2 ^ 64 = 0 := by
  have h64 : (2 : Nat) ^ 64 = 18446744073709551616 := by norm_num
  rw [h64] at h1 h2 ⊢
  rw [blocks]
  split
  · omega
  · have hq : sz / 512 = 36028797018963967 := by omega
    rw [hq]

theorem tarRead_counters {σ : Type} (rd : σ → Nat → Res (List Nat × σ))
    (r : TarReader σ) (L : Nat) :
    (tarRead rd r L).2.data_left ≤ r.data_left ∧
    (tarRead rd r L).2.next_header ≤ r.next_header ∧
    (r.data_left ≤ r.next_header →
      (tarRead rd r L).2.data_left ≤ (tarRead rd r L).2.next_header) := by
  cases hr : rd r.tar (min r.data_left L) with
  | err e =>
    have hout : tarRead rd r L = (.err e, r) := by rw [tarRead, hr]
    rw [hout]
    exact ⟨le_refl _, le_refl _, fun hi => hi⟩
  | fatal e =>
    have hout : tarRead rd r L = (.fatal e, r) := by rw [tarRead, hr]
    rw [hout]
    exact ⟨le_refl _, le_refl _, fun hi => hi⟩
  | ok p =>
    obtain ⟨bs, s'⟩ := p
    by_cases h1 : bs.length ≤ r.data_left
    · by_cases h2 : bs.length ≤ r.next_header
      · have hout : tarRead rd r L = (.ok bs.length,
            ⟨s', r.next_header - bs.length, r.data_left - bs.length⟩) := by
          rw [tarRead, hr]
          simp only [if_pos h1, if_pos h2]
        rw [hout]
        exact ⟨by show r.data_left - bs.length ≤ r.data_left; omega,
          by show r.next_header - bs.length ≤ r.next_header; omega,
          fun hi => by
            show r.data_left - bs.length ≤ r.next_header - bs.length
            omega⟩
      · have hout : tarRead rd r L = (.fatal "assertion failed: bytes_read <= self.next_header",
            ⟨s', r.next_header, r.data_left⟩) := by
          rw [tarRead, hr]
          simp only [if_pos h1, if_neg h2]
        rw [hout]
        exact ⟨le_refl _, le_refl _, fun hi => hi⟩
    · have hout : tarRead rd r L = (.fatal "assertion failed: bytes_read <= self.data_left",
          ⟨s', r.next_header, r.data_left⟩) := by
        rw [tarRead, hr]
        simp only [if_neg h1]
      rw [hout]
      exact ⟨le_refl _, le_refl _, fun hi => hi⟩

theorem nextEntry_ok_inv {σ : Type} (rd : σ → Nat → Res (List Nat × σ))
    (r : TarReader σ) (oh : Option InnerHeader) (r' : TarReader σ)
    (hne : nextEntry rd r = (.ok oh, r')) (hsz : r'.data_left < 2 ^ 64 - 512) :
    r'.data_left ≤ r'.next_header := by
  rw [nextEntry] at hne
  split at hne
  · exact absurd hne (by simp)
  · exact absurd hne (by simp)
  · split at hne
    · exact absurd hne (by simp)
    · exact absurd hne (by simp)
    · split at hne
      · simp only [Prod.mk.injEq] at hne
        rw [← hne.2]
      · split at hne
        · exact absurd hne (by simp)
        · exact absurd hne (by simp)
        · split at hne
          · simp only [Prod.mk.injEq] at hne
            rw [← hne.2]
          · split at hne
            · exact absurd hne (by simp)
            · exact absurd hne (by simp)
            · next sz heq =>
              simp only [Prod.mk.injEq] at hne
              rw [← hne.2] at hsz
              rw [← hne.2]
              have hsz' : sz < 2 ^ 64 - 512 := hsz
              show sz ≤ blocks sz * 512 % 2 ^ 64
              rw [Nat.mod_eq_of_lt (blocks_mul_lt sz hsz')]
              exact le_blocks_mul sz

theorem nextEntry_ok_some_nh {σ : Type} (rd : σ → Nat → Res (List Nat × σ))
    (r : TarReader σ) (hd : InnerHeader) (r' : TarReader σ)
    (hne : nextEntry rd r = (.ok (some hd), r')) :
    r'.next_header = blocks r'.data_left * 512 % 2 ^ 64 := by
  rw [nextEntry] at hne
  split at hne
  · exact absurd hne (by simp)
  · exact absurd hne (by simp)
  · split at hne
    · exact absurd hne (by simp)
    · exact absurd hne (by simp)
    · split at hne
      · simp only [Prod.mk.injEq] at hne
        exact absurd hne.1 (by simp)
      · split at hne
        · exact absurd hne (by simp)
        · exact absurd hne (by simp)
        · split at hne
          · simp only [Prod.mk.injEq] at hne
            exact absurd hne.1 (by simp)
          · split at hne
            · exact absurd hne (by simp)
            · exact absurd hne (by simp)
            · simp only [Prod.mk.injEq] at hne
              rw [← hne.2]

theorem nextEntry_nonsuccess_counters {σ : Type} (rd : σ → Nat → Res (List Nat × σ))
    (r : TarReader σ) (out : Res (Option InnerHeader)) (r' : TarReader σ)
    (hne : nextEntry rd r = (out, r')) (hexc : ∀ hd, out ≠ .ok (some hd)) :
    r'.data_left ≤ r.data_left ∧ r'.next_header ≤ r.next_header := by
  rw [nextEntry] at hne
  split at hne
  · next e s1 nh1 heq =>
    simp only [Prod.mk.injEq] at hne
    rw [← hne.2]
    exact ⟨le_refl _, skipLoop_nh_le rd r.next_header r.tar _ s1 nh1 heq⟩
  · next e s1 nh1 heq =>
    simp only [Prod.mk.injEq] at hne
    rw [← hne.2]
    exact ⟨le_refl _, skipLoop_nh_le rd r.next_header r.tar _ s1 nh1 heq⟩
  · split at hne
    · simp only [Prod.mk.injEq] at hne
      rw [← hne.2]
      exact ⟨Nat.zero_le _, Nat.zero_le _⟩
    · simp only [Prod.mk.injEq] at hne
      rw [← hne.2]
      exact ⟨Nat.zero_le _, Nat.zero_le _⟩
    · split at hne
      · simp only [Prod.mk.injEq] at hne
        rw [← hne.2]
        exact ⟨Nat.zero_le _, Nat.zero_le _⟩
      · split at hne
        · simp only [Prod.mk.injEq] at hne
          rw [← hne.2]
          exact ⟨Nat.zero_le _, Nat.zero_le _⟩
        · simp only [Prod.mk.injEq] at hne
          rw [← hne.2]
          exact ⟨Nat.zero_le _, Nat.zero_le _⟩
        · split at hne
          · simp only [Prod.mk.injEq] at hne
            rw [← hne.2]
            exact ⟨Nat.zero_le _, Nat.zero_le _⟩
          · split at hne
            · simp only [Prod.mk.injEq] at hne
              rw [← hne.2]
              exact ⟨Nat.zero_le _, Nat.zero_le _⟩
            · simp only [Prod.mk.injEq] at hne
              rw [← hne.2]
              exact ⟨Nat.zero_le _, Nat.zero_le _⟩
            · simp only [Prod.mk.injEq] at hne
              exact absurd hne.1.symm (hexc _)

theorem nextEntry_header_at_offset (data caps : List Nat) (nh dl : Nat)
    (hg : GoodCaps caps) (hd : InnerHeader) (r' : TarReader StreamSrc)
    (hne : nextEntry srcRead ⟨⟨data, caps⟩, nh, dl⟩ = (.ok (some hd), r')) :
    hd = decodeHeader ((data.drop nh).take 512) := by
  rcases Nat.lt_trichotomy data.length nh with hlt | heq | hgt
  · obtain ⟨m, he⟩ := nextEntry_src_skip_eof data caps nh dl hg hlt
    rw [he] at hne
    exact absurd hne (by simp)
  · obtain ⟨m, he⟩ := nextEntry_src_boundary data caps nh dl hg heq
    rw [he] at hne
    exact absurd hne (by simp)
  · by_cases hfull : nh + 512 ≤ data.length
    · obtain ⟨m, he⟩ := nextEntry_src_full data caps nh dl hg hfull
      rw [he] at hne
      by_cases h0 : (decodeHeader ((data.drop nh).take 512)).name.getD 0 0 = 0
      · rw [if_pos h0] at hne
        exact absurd hne (by simp)
      · rw [if_neg h0] at hne
        cases hsv : (decodeHeader ((data.drop nh).take 512)).sizeVal with
        | ok sz =>
          simp only [hsv] at hne
          simp only [Prod.mk.injEq, Res.ok.injEq, Option.some.injEq] at hne
          exact hne.1.symm
        | err e => exact absurd hsv (sizeVal_no_err _ e)
        | fatal e =>
          simp only [hsv] at hne
          exact absurd hne (by simp)
    · have h2 : data.length < nh + 512 := by omega
      obtain ⟨m, he⟩ := nextEntry_src_partial data caps nh dl hg hgt h2
      rw [he] at hne
      exact absurd hne (by simp)

/-- C5 counterexample: the invariant data_left ≤ next_header is NOT preserved by
every call to next(): starting from a reader with next_header = 2, data_left = 2
over an exhausted source, next() fails with UnexpectedEof mid-skip after
decrementing next_header to 1, leaving data_left = 2 > next_header = 1. -/
theorem claim_C5_counterexample :
    (TarReader.mk (StreamSrc.mk [7] []) 2 2).data_left ≤
      (TarReader.mk (StreamSrc.mk [7] []) 2 2).next_header ∧
    (nextEntry srcRead (TarReader.mk (StreamSrc.mk [7] []) 2 2)).2.next_header <
      (nextEntry srcRead (TarReader.mk (StreamSrc.mk [7] []) 2 2)).2.data_left := by
  obtain ⟨m, he⟩ := nextEntry_src_skip_eof [7] [] 2 2
    (fun c hc => absurd hc (List.not_mem_nil c)) (by norm_num)
  refine ⟨le_refl _, ?_⟩
  rw [he]
  norm_num

/-- C5 (amended): the invariant data_left ≤ next_header holds after construction,
is preserved and strengthened by every body read (which also never increases either
counter), and holds after every next() call that returns Ok with a decoded size
below 2^64 - 512 (so that the usize multiply blocks(size) * 512 at line 201 does
not overflow); every next() call that does not successfully decode a header leaves
both counters no larger than before; a successful next() decodes the header from
exactly the 512 bytes found at stream offset next_header from the current
position.  Two parts of the unamended claim fail: a next() returning Err mid-skip
can leave data_left > next_header (see the counterexample), and for a decoded size
in [2^64 - 512, 2^64) — reachable via the binary size encoding — the wrapping
usize multiply sets next_header = 0 while data_left = size, so even an Ok next()
violates the invariant (final conjunct). -/
theorem claim_C5_invariants :
    (∀ (σ : Type) (s : σ),
      (TarReader.new s).data_left ≤ (TarReader.new s).next_header) ∧
    (∀ (σ : Type) (rd : σ → Nat → Res (List Nat × σ)) (r : TarReader σ) (L : Nat),
      (tarRead rd r L).2.data_left ≤ r.data_left ∧
      (tarRead rd r L).2.next_header ≤ r.next_header ∧
      (r.data_left ≤ r.next_header →
        (tarRead rd r L).2.data_left ≤ (tarRead rd r L).2.next_header)) ∧
    (∀ (σ : Type) (rd : σ → Nat → Res (List Nat × σ)) (r : TarReader σ)
      (oh : Option InnerHeader) (r' : TarReader σ),
      nextEntry rd r = (.ok oh, r') → r'.data_left < 2 ^ 64 - 512 →
      r'.data_left ≤ r'.next_header) ∧
    (∀ (σ : Type) (rd : σ → Nat → Res (List Nat × σ)) (r : TarReader σ)
      (out : Res (Option InnerHeader)) (r' : TarReader σ),
      nextEntry rd r = (out, r') → (∀ hd, out ≠ .ok (some hd)) →
      r'.data_left ≤ r.data_left ∧ r'.next_header ≤ r.next_header) ∧
    (∀ (data caps : List Nat) (nh dl : Nat) (hd : InnerHeader)
      (r' : TarReader StreamSrc), GoodCaps caps →
      nextEntry srcRead ⟨⟨data, caps⟩, nh, dl⟩ = (.ok (some hd), r') →
      hd = decodeHeader ((data.drop nh).take 512)) ∧
    (∀ (σ : Type) (rd : σ → Nat → Res (List Nat × σ)) (r : TarReader σ)
      (hd : InnerHeader) (r' : TarReader σ),
      nextEntry rd r = (.ok (some hd), r') →
      2 ^ 64 - 512 ≤ r'.data_left → r'.data_left < 2 ^ 64 →
      r'.next_header = 0 ∧ r'.next_header < r'.data_left) :=
  ⟨fun _ _ => le_refl _,
   fun _ rd r L => tarRead_counters rd r L,
   fun _ rd r oh r' h hb => nextEntry_ok_inv rd r oh r' h hb,
   fun _ rd r out r' h hx => nextEntry_nonsuccess_counters rd r out r' h hx,
   fun data caps nh dl hd r' hg h => nextEntry_header_at_offset data caps nh dl hg hd r' h,
   fun _ rd r hd r' hne h1 h2 => by
     have hnh := nextEntry_ok_some_nh rd r hd r' hne
     rw [hnh, blocks_mul_wrap r'.data_left h1 h2]
     have h64 : (2 : Nat) ^ 64 = 18446744073709551616 := by norm_num
     rw [h64] at h1
     exact ⟨rfl, by omega⟩⟩

/-- Witness for C5: the body-read conjunct applied at a concrete reader whose
counters are 10 and 3 with an exhausted source, discharging data_left ≤ next_header
there. -/
theorem claim_C5_witness :
    (tarRead srcRead (TarReader.mk (StreamSrc.mk [1, 2, 3] []) 10 3) 2).2.data_left ≤
      (tarRead srcRead (TarReader.mk (StreamSrc.mk [1, 2, 3] []) 10 3) 2).2.next_header :=
  (claim_C5_invariants.2.1 StreamSrc srcRead
    (TarReader.mk (StreamSrc.mk [1, 2, 3] []) 10 3) 2).2.2 (by norm_num)

/-- Witness for C4: a source holding exactly one all-zero 512-byte block makes
next_entry return Ok(None) via the NUL-name sentinel branch. -/
theorem claim_C4_witness :
    (nextEntry srcRead
      (TarReader.mk (StreamSrc.mk (List.replicate 512 0) []) 0 0)).1 = Res.ok none :=
  (claim_C4_next_entry_ends (List.replicate 512 0) [] 0 0
    (fun c hc => absurd hc (List.not_mem_nil c))).1.mpr
    (Or.inr ⟨by rw [List.length_replicate],
             by rw [List.replicate_succ]; rfl⟩)
end Ytar
